import Mathlib

/-!
Verification of the `vcs-repo-mgr` repository (version 0.15.1).

This file shallowly embeds the parts of `vcs_repo_mgr/__init__.py` that the
verified properties are about: the natural-order sort key and sorting used for
releases, the release computation and selection (`Repository.releases`,
`Repository.ordered_releases`, `Repository.select_release`), the factory cache
(`repository_factory`), the update throttle (`Repository.create` /
`Repository.update` / `Repository.last_updated`), the Mercurial branch/tag
listing parser (`HgRepo.find_branches` / `HgRepo.find_tags`), the revision-id
format assertion (`HgRepo.find_revision_id` / `GitRepo.find_revision_id`) and
the name/URL coercion logic (`coerce_repository` /
`find_configured_repository`).

Python strings are embedded as `String` / `List Char`, Python integers as
`Int`/`Nat`, raised exceptions as `Except`/`Option`, and the filesystem and
subprocess boundary as explicit inputs.
-/

namespace VcsRepoMgr

/-! ### Three-way comparisons

The `natsort` library compares sort keys with Python's sequence comparison, so
we build a small theory of `Ordering`-valued comparators first.
-/

/-- Three-way comparison of natural numbers (Python `int` comparison on
non-negative values). -/
def natCmp (m n : Nat) : Ordering :=
  if m < n then .lt else if n < m then .gt else .eq

/-- A comparator is lawful when `.eq` means equality, swapping the arguments
swaps the verdict, and strict-below is transitive. -/
structure LawfulCmp {α : Type _} (c : α → α → Ordering) : Prop where
  eq_iff : ∀ a b, c a b = Ordering.eq ↔ a = b
  swap_eq : ∀ a b, (c a b).swap = c b a
  lt_trans : ∀ a b d, c a b = Ordering.lt → c b d = Ordering.lt → c a d = Ordering.lt

theorem natCmp_lt_iff (m n : Nat) : natCmp m n = Ordering.lt ↔ m < n := by
  unfold natCmp
  split
  · simp [*]
  · split <;> simp <;> omega

theorem natCmp_eq_iff (m n : Nat) : natCmp m n = Ordering.eq ↔ m = n := by
  unfold natCmp
  split
  · simp; omega
  · split <;> simp <;> omega

theorem natCmp_swap (m n : Nat) : (natCmp m n).swap = natCmp n m := by
  unfold natCmp
  rcases Nat.lt_trichotomy m n with h | h | h
  · simp [h, Nat.lt_asymm h, Ordering.swap]
  · simp [h, Nat.lt_irrefl, Ordering.swap]
  · simp [h, Nat.lt_asymm h, Ordering.swap]

theorem lawful_natCmp : LawfulCmp natCmp := by
  refine ⟨natCmp_eq_iff, natCmp_swap, ?_⟩
  intro a b d hab hbd
  rw [natCmp_lt_iff] at hab hbd ⊢
  omega

/-- Lexicographic comparison of sequences, as Python compares two tuples or
lists element-wise with the shorter prefix ordered first. -/
def lexCmp {α : Type _} (c : α → α → Ordering) : List α → List α → Ordering
  | [], [] => .eq
  | [], _ :: _ => .lt
  | _ :: _, [] => .gt
  | a :: as, b :: bs =>
    match c a b with
    | .eq => lexCmp c as bs
    | o => o

theorem lexCmp_eq_iff {α : Type _} {c : α → α → Ordering} (h : LawfulCmp c) :
    ∀ as bs : List α, lexCmp c as bs = Ordering.eq ↔ as = bs := by
  intro as
  induction as with
  | nil => intro bs; cases bs <;> simp [lexCmp]
  | cons a as ih =>
    intro bs
    cases bs with
    | nil => simp [lexCmp]
    | cons b bs =>
      simp only [lexCmp]
      cases hab : c a b with
      | eq =>
        have : a = b := (h.eq_iff a b).mp hab
        subst this
        simp [ih bs]
      | lt =>
        have : ¬ a = b := fun he => by
          subst he; rw [(h.eq_iff a a).mpr rfl] at hab; exact Ordering.noConfusion hab
        simp [this]
      | gt =>
        have : ¬ a = b := fun he => by
          subst he; rw [(h.eq_iff a a).mpr rfl] at hab; exact Ordering.noConfusion hab
        simp [this]

theorem lexCmp_swap {α : Type _} {c : α → α → Ordering} (h : LawfulCmp c) :
    ∀ as bs : List α, (lexCmp c as bs).swap = lexCmp c bs as := by
  intro as
  induction as with
  | nil => intro bs; cases bs <;> simp [lexCmp, Ordering.swap]
  | cons a as ih =>
    intro bs
    cases bs with
    | nil => simp [lexCmp, Ordering.swap]
    | cons b bs =>
      simp only [lexCmp]
      cases hab : c a b with
      | eq =>
        have hba : c b a = Ordering.eq := by rw [← h.swap_eq a b, hab]; rfl
        simp [hba, ih bs]
      | lt =>
        have hba : c b a = Ordering.gt := by rw [← h.swap_eq a b, hab]; rfl
        simp [hba, Ordering.swap]
      | gt =>
        have hba : c b a = Ordering.lt := by rw [← h.swap_eq a b, hab]; rfl
        simp [hba, Ordering.swap]

theorem lexCmp_lt_trans {α : Type _} {c : α → α → Ordering} (h : LawfulCmp c) :
    ∀ as bs ds : List α, lexCmp c as bs = Ordering.lt → lexCmp c bs ds = Ordering.lt →
      lexCmp c as ds = Ordering.lt := by
  intro as
  induction as with
  | nil =>
    intro bs ds h1 h2
    cases bs with
    | nil => simp [lexCmp] at h1
    | cons b bs =>
      cases ds with
      | nil => simp [lexCmp] at h2
      | cons d ds => simp [lexCmp]
  | cons a as ih =>
    intro bs ds h1 h2
    cases bs with
    | nil => simp [lexCmp] at h1
    | cons b bs =>
      cases ds with
      | nil => simp [lexCmp] at h2
      | cons d ds =>
        simp only [lexCmp] at h1 h2 ⊢
        cases hab : c a b with
        | gt => rw [hab] at h1; exact Ordering.noConfusion h1
        | eq =>
          have : a = b := (h.eq_iff a b).mp hab
          subst this
          rw [hab] at h1
          cases hbd : c a d with
          | eq =>
            have : a = d := (h.eq_iff a d).mp hbd
            subst this
            rw [hbd] at h2
            exact ih bs ds h1 h2
          | lt => rfl
          | gt => rw [hbd] at h2; exact Ordering.noConfusion h2
        | lt =>
          cases hbd : c b d with
          | eq =>
            have : b = d := (h.eq_iff b d).mp hbd
            subst this
            rw [hab]
          | lt => rw [h.lt_trans a b d hab hbd]
          | gt => rw [hbd] at h2; exact Ordering.noConfusion h2

theorem lawful_lexCmp {α : Type _} {c : α → α → Ordering} (h : LawfulCmp c) :
    LawfulCmp (lexCmp c) :=
  ⟨lexCmp_eq_iff h, lexCmp_swap h, lexCmp_lt_trans h⟩

theorem LawfulCmp.cmp_refl {α : Type _} {c : α → α → Ordering} (h : LawfulCmp c) (a : α) :
    c a a = Ordering.eq :=
  (h.eq_iff a a).mpr rfl

theorem ordering_isLE_iff (o : Ordering) : o.isLE = true ↔ o ≠ Ordering.gt := by
  cases o <;> simp [Ordering.isLE]

theorem LawfulCmp.le_refl {α : Type _} {c : α → α → Ordering} (h : LawfulCmp c) (a : α) :
    (c a a).isLE = true := by
  rw [h.cmp_refl a]; rfl

theorem LawfulCmp.le_total {α : Type _} {c : α → α → Ordering} (h : LawfulCmp c) (a b : α) :
    (c a b).isLE = true ∨ (c b a).isLE = true := by
  cases hab : c a b with
  | lt => left; rfl
  | eq => left; rfl
  | gt =>
    right
    have : c b a = Ordering.lt := by rw [← h.swap_eq a b, hab]; rfl
    rw [this]; rfl

theorem LawfulCmp.le_trans {α : Type _} {c : α → α → Ordering} (h : LawfulCmp c) {a b d : α}
    (h1 : (c a b).isLE = true) (h2 : (c b d).isLE = true) : (c a d).isLE = true := by
  cases hab : c a b with
  | gt => rw [hab] at h1; exact absurd h1 (by simp [Ordering.isLE])
  | eq =>
    have : a = b := (h.eq_iff a b).mp hab
    subst this; exact h2
  | lt =>
    cases hbd : c b d with
    | gt => rw [hbd] at h2; exact absurd h2 (by simp [Ordering.isLE])
    | eq =>
      have : b = d := (h.eq_iff b d).mp hbd
      subst this; rw [hab]; rfl
    | lt => rw [h.lt_trans a b d hab hbd]; rfl

theorem LawfulCmp.le_antisymm {α : Type _} {c : α → α → Ordering} (h : LawfulCmp c) {a b : α}
    (h1 : (c a b).isLE = true) (h2 : (c b a).isLE = true) : a = b := by
  cases hab : c a b with
  | gt => rw [hab] at h1; exact absurd h1 (by simp [Ordering.isLE])
  | eq => exact (h.eq_iff a b).mp hab
  | lt =>
    have : c b a = Ordering.gt := by rw [← h.swap_eq a b, hab]; rfl
    rw [this] at h2
    exact absurd h2 (by simp [Ordering.isLE])

theorem LawfulCmp.lt_not_le {α : Type _} {c : α → α → Ordering} (h : LawfulCmp c) {a b : α}
    (h1 : c a b = Ordering.lt) : ¬ (c b a).isLE = true := by
  have : c b a = Ordering.gt := by rw [← h.swap_eq a b, h1]; rfl
  rw [this]
  simp [Ordering.isLE]

/-! ### The natural-order sort key

The code delegates sorting to the external `natsort` library
(`from natsort import natsort, natsort_key`), whose implementation is not part
of this repository.
-/

/-- One run of the natural-order sort key: a maximal run of digits (compared
numerically) or a maximal run of other characters (kept as their code points
and compared lexicographically). -/
inductive Chunk where
  | num (n : Nat)
  | str (s : List Nat)
deriving DecidableEq

/-- Modelled from the spec: the comparison of two runs of a natural-order sort
key. Digit runs compare numerically and non-digit runs compare
lexicographically; keys are alternating, so two runs at the same index of two
well-formed keys can only disagree in kind at the very ends, where the spec
leaves the order unspecified; we order numeric runs first. -/
def chunkCmp : Chunk → Chunk → Ordering
  | .num m, .num n => natCmp m n
  | .str s, .str t => lexCmp natCmp s t
  | .num _, .str _ => .lt
  | .str _, .num _ => .gt

theorem lawful_chunkCmp : LawfulCmp chunkCmp := by
  have hs := lawful_lexCmp lawful_natCmp
  refine ⟨?_, ?_, ?_⟩
  · intro a b
    cases a <;> cases b <;> simp [chunkCmp, natCmp_eq_iff, lexCmp_eq_iff lawful_natCmp]
  · intro a b
    cases a <;> cases b
    · exact natCmp_swap _ _
    · rfl
    · rfl
    · exact lexCmp_swap lawful_natCmp _ _
  · intro a b d hab hbd
    cases a <;> cases b <;> cases d <;>
      simp_all [chunkCmp]
    · exact (natCmp_lt_iff _ _).mpr
        (Nat.lt_trans ((natCmp_lt_iff _ _).mp hab) ((natCmp_lt_iff _ _).mp hbd))
    · exact hs.lt_trans _ _ _ hab hbd

/-- Modelled from the spec: one step of decomposing a string into alternating
runs of digits and non-digits.  The accumulator holds the runs seen so far in
reverse order; a digit extends a leading numeric run (as `n * 10 + digit`,
which is the numeric value of the whole run) and any other character extends a
leading string run. -/
def chunkStep (acc : List Chunk) (c : Char) : List Chunk :=
  if c.isDigit then
    match acc with
    | .num n :: rest => .num (n * 10 + (c.toNat - 48)) :: rest
    | _ => .num (c.toNat - 48) :: acc
  else
    match acc with
    | .str s :: rest => .str (s ++ [c.toNat]) :: rest
    | _ => .str [c.toNat] :: acc

/-- Modelled from the spec: the natural-order sort key of a string, i.e. the
`natsort_key` function of the external `natsort` library, which is not part of
this repository.  The string is decomposed into alternating runs of digits and
non-digits; digit runs become numbers, other runs stay character sequences. -/
def natsort_key (s : String) : List Chunk :=
  (s.data.foldl chunkStep []).reverse

/-- Modelled from the spec: comparison of two natural-order sort keys, run by
run, shorter prefix first (Python sequence comparison). -/
def keyCmp (a b : List Chunk) : Ordering :=
  lexCmp chunkCmp a b

theorem lawful_keyCmp : LawfulCmp keyCmp :=
  lawful_lexCmp lawful_chunkCmp

/-- Boolean `<=` on natural-order sort keys, as used by
`Repository.select_release` (`release_key <= highest_allowed_key`). -/
def keyLeB (a b : List Chunk) : Bool :=
  (keyCmp a b).isLE

/-- The ordering that `natsort(values, key=...)` sorts by: compare the
natural-order sort keys of the projections. -/
def natLeOn {α : Type _} (f : α → String) (a b : α) : Prop :=
  keyLeB (natsort_key (f a)) (natsort_key (f b)) = true

instance natLeOn.decidableRel {α : Type _} (f : α → String) : DecidableRel (natLeOn f) :=
  fun a b => instDecidableEqBool _ _

instance natLeOn.isTotal {α : Type _} (f : α → String) : IsTotal α (natLeOn f) :=
  ⟨fun a b => lawful_keyCmp.le_total (natsort_key (f a)) (natsort_key (f b))⟩

instance natLeOn.isTrans {α : Type _} (f : α → String) : IsTrans α (natLeOn f) :=
  ⟨fun _ _ _ h1 h2 => lawful_keyCmp.le_trans h1 h2⟩

/-- Modelled from the spec: `natsort(values, key=f)` of the external `natsort`
library — a stable ascending sort by the natural-order key of `f`.  Python's
`sorted` is a stable sort and `List.insertionSort` is stable, so the two agree
on every input. -/
def natsort {α : Type _} (f : α → String) (l : List α) : List α :=
  l.insertionSort (natLeOn f)

/-! ### Revisions, releases and release selection -/

/-- Embeds the `Revision` class: `revision_id` is always present; the
revision number, branch name and tag name are optional.  The back reference to
the owning repository and the lazy recomputation of `revision_number` play no
role in the verified properties and are omitted. -/
structure Revision where
  revision_id : String
  revision_number : Option Int := none
  branch : Option String := none
  tag : Option String := none
deriving DecidableEq

/-- Embeds the `Release` class: a revision together with the release
identifier derived from the tag or branch name. -/
structure Release where
  revision : Revision
  identifier : String
deriving DecidableEq

/-- Embeds `Repository.ordered_releases`: the values of the releases mapping
sorted by natural order of their identifiers, ascending
(`natsort(self.releases.values(), key=operator.attrgetter('identifier'))`).
The argument is the list of values of the releases mapping. -/
def ordered_releases (releases : List Release) : List Release :=
  natsort Release.identifier releases

/-- Embeds `Repository.select_release`: walk `ordered_releases` in ascending
order, collect every release whose identifier's natural-order sort key is `<=`
the key of `highest_allowed_release`, and return the last collected release.
`none` stands for raising `NoMatchingReleasesError` (the code raises exactly
when the collected list is empty). -/
def select_release (releases : List Release) (highest_allowed_release : String) :
    Option Release :=
  ((ordered_releases releases).filter fun release =>
    keyLeB (natsort_key release.identifier) (natsort_key highest_allowed_release)).getLast?

theorem pairwise_rel_of_getLast? {α : Type _} {R : α → α → Prop} :
    ∀ {l : List α} {a b : α}, l.Pairwise R → l.getLast? = some a → b ∈ l → b = a ∨ R b a := by
  intro l
  induction l with
  | nil => intro a b _ hl hb; cases hb
  | cons x t ih =>
    intro a b hp hl hb
    cases t with
    | nil =>
      simp at hl hb
      subst hb
      left
      exact hl
    | cons y t2 =>
      rw [List.getLast?_cons_cons] at hl
      rcases List.mem_cons.mp hb with hb | hb
      · subst hb
        right
        have ha : a ∈ y :: t2 := List.mem_of_getLast?_eq_some hl
        exact (List.pairwise_cons.mp hp).1 a ha
      · exact ih (List.pairwise_cons.mp hp).2 hl hb

theorem ordered_releases_perm (releases : List Release) :
    List.Perm (ordered_releases releases) releases :=
  List.perm_insertionSort _ releases

theorem ordered_releases_sorted (releases : List Release) :
    (ordered_releases releases).Pairwise (natLeOn Release.identifier) :=
  List.sorted_insertionSort _ releases

theorem select_release_eq_none_iff (releases : List Release) (h : String) :
    select_release releases h = none ↔
      ∀ r ∈ releases, keyLeB (natsort_key r.identifier) (natsort_key h) = false := by
  unfold select_release
  rw [List.getLast?_eq_none_iff, List.filter_eq_nil_iff]
  constructor
  · intro hall r hr
    have : r ∈ ordered_releases releases := (ordered_releases_perm releases).mem_iff.mpr hr
    have := hall r this
    simpa using this
  · intro hall r hr
    have : r ∈ releases := (ordered_releases_perm releases).mem_iff.mp hr
    simp [hall r this]

theorem select_release_eq_some (releases : List Release) (h : String) (r : Release)
    (hsel : select_release releases h = some r) :
    r ∈ releases ∧ keyLeB (natsort_key r.identifier) (natsort_key h) = true ∧
      ∀ q ∈ releases, keyLeB (natsort_key q.identifier) (natsort_key h) = true →
        keyLeB (natsort_key q.identifier) (natsort_key r.identifier) = true := by
  unfold select_release at hsel
  have hrmem₀ := List.mem_of_getLast?_eq_some hsel
  have hrmem := List.mem_filter.mp hrmem₀
  have hsorted : ((ordered_releases releases).filter fun release =>
      keyLeB (natsort_key release.identifier) (natsort_key h)).Pairwise
        (natLeOn Release.identifier) :=
    List.Sorted.filter _ (ordered_releases_sorted releases)
  refine ⟨(ordered_releases_perm releases).mem_iff.mp hrmem.1, hrmem.2, ?_⟩
  intro q hq hqle
  have hqmem : q ∈ (ordered_releases releases).filter fun release =>
      keyLeB (natsort_key release.identifier) (natsort_key h) :=
    List.mem_filter.mpr ⟨(ordered_releases_perm releases).mem_iff.mpr hq, hqle⟩
  rcases pairwise_rel_of_getLast? hsorted hsel hqmem with heq | hle
  · subst heq
    exact lawful_keyCmp.le_refl _
  · exact hle

instance exceptDecEq {e a : Type _} [DecidableEq e] [DecidableEq a] :
    DecidableEq (Except e a) := fun x y =>
  match x, y with
  | .ok u, .ok v =>
    if h : u = v then isTrue (by rw [h]) else isFalse (fun he => by cases he; exact h rfl)
  | .error u, .error v =>
    if h : u = v then isTrue (by rw [h]) else isFalse (fun he => by cases he; exact h rfl)
  | .ok _, .error _ => isFalse (fun he => by cases he)
  | .error _, .ok _ => isFalse (fun he => by cases he)

/-- Python `token.split(sep)` for a one-character separator: empty pieces are
kept, so the result has one more piece than there are separators. -/
def splitOnChar (sep : Char) : List Char → List (List Char)
  | [] => [[]]
  | c :: cs =>
    match splitOnChar sep cs with
    | [] => [[]]
    | t :: ts => if c = sep then [] :: t :: ts else (c :: t) :: ts

/-! ### The releases mapping -/

/-- Python `dict` insertion: assigning to an existing key replaces its value in
place, otherwise the pair is appended. -/
def dictInsert {α : Type _} : List (String × α) → String → α → List (String × α)
  | [], k, v => [(k, v)]
  | (k', v') :: rest, k, v =>
    if k' = k then (k, v) :: rest else (k', v') :: dictInsert rest k v

/-- Python `dict` lookup on an association list. -/
def alookup {α : Type _} : List (String × α) → String → Option α
  | [], _ => none
  | (k', v') :: rest, k => if k' = k then some v' else alookup rest k

/-- Embeds one iteration of the loop in `Repository.releases`.  The release
filter is abstracted as a function from a tag/branch name to `none` (the
regular expression does not match), `some none` (it matches and has no capture
group) or `some (some captured)` (it matches and its single capture group
captured `captured`); a matching group is assumed to participate in the match,
as it does for the filters considered here.  On a match the identifier is the
captured substring if there is a capture group and the full name otherwise,
and `available_releases[identifier] = Release(revision, identifier)`. -/
def releasesStep (release_filter : String → Option (Option String))
    (acc : List (String × Release)) (entry : String × Revision) :
    List (String × Release) :=
  match release_filter entry.1 with
  | none => acc
  | some captures =>
    let identifier := captures.getD entry.1
    dictInsert acc identifier ⟨entry.2, identifier⟩

/-- Embeds `Repository.releases`: iterate over the tags or branches mapping
(selected by `release_scheme`; passed here as an association list in iteration
order) and build the identifier-to-release mapping. -/
def releases (available_revisions : List (String × Revision))
    (release_filter : String → Option (Option String)) : List (String × Release) :=
  available_revisions.foldl (releasesStep release_filter) []

/-- The identifiers derived from the names that match the release filter, in
iteration order. -/
def derivedIds (release_filter : String → Option (Option String))
    (available_revisions : List (String × Revision)) : List String :=
  available_revisions.filterMap fun entry =>
    (release_filter entry.1).map fun captures => captures.getD entry.1

/-- Embeds the release filter regular expression `^v(\d+(?:\.\d+)*)$` from the
spec's capture-group example: it matches exactly a `v` followed by a non-empty
dot-separated sequence of digit groups and captures everything after the `v`. -/
def vFilter (name : String) : Option (Option String) :=
  match name.data with
  | 'v' :: rest =>
    if (splitOnChar '.' rest).all (fun p => !p.isEmpty && p.all Char.isDigit)
    then some (some (String.mk rest)) else none
  | _ => none

/-- Embeds the release filter regular expression `^v?(\d+)$`: an optional `v`
followed by a captured non-empty run of digits.  Two distinct names (for
example `1` and `v1`) can yield the same captured identifier. -/
def optionalVFilter (name : String) : Option (Option String) :=
  match name.data with
  | 'v' :: rest =>
    if !rest.isEmpty && rest.all Char.isDigit then some (some (String.mk rest)) else none
  | other =>
    if !other.isEmpty && other.all Char.isDigit then some (some (String.mk other)) else none

theorem alookup_dictInsert_self {α : Type _} (m : List (String × α)) (k : String) (v : α) :
    alookup (dictInsert m k v) k = some v := by
  induction m with
  | nil => simp [dictInsert, alookup]
  | cons p rest ih =>
    obtain ⟨k', v'⟩ := p
    by_cases hk : k' = k
    · subst hk
      simp [dictInsert, alookup]
    · simp [dictInsert, alookup, hk, ih]

theorem alookup_dictInsert_ne {α : Type _} (m : List (String × α)) (k k' : String) (v : α)
    (h : k' ≠ k) : alookup (dictInsert m k v) k' = alookup m k' := by
  induction m with
  | nil => simp [dictInsert, alookup, Ne.symm h]
  | cons p rest ih =>
    obtain ⟨k₀, v₀⟩ := p
    by_cases hk : k₀ = k
    · subst hk
      simp [dictInsert, alookup, Ne.symm h]
    · by_cases hk' : k₀ = k'
      · subst hk'
        simp [dictInsert, alookup, hk]
      · simp [dictInsert, alookup, hk, hk', ih]

theorem derivedIds_cons (release_filter : String → Option (Option String))
    (entry : String × Revision) (rest : List (String × Revision)) :
    derivedIds release_filter (entry :: rest) =
      match release_filter entry.1 with
      | none => derivedIds release_filter rest
      | some captures => captures.getD entry.1 :: derivedIds release_filter rest := by
  unfold derivedIds
  rw [List.filterMap_cons]
  cases release_filter entry.1 <;> rfl

theorem releases_foldl_lookup_of_not_mem (release_filter : String → Option (Option String))
    (L : List (String × Revision)) (m : List (String × Release)) (k : String)
    (hk : k ∉ derivedIds release_filter L) :
    alookup (L.foldl (releasesStep release_filter) m) k = alookup m k := by
  induction L generalizing m with
  | nil => simp
  | cons entry rest ih =>
    rw [List.foldl_cons]
    rw [derivedIds_cons] at hk
    cases hf : release_filter entry.1 with
    | none =>
      rw [hf] at hk
      rw [show releasesStep release_filter m entry = m by simp [releasesStep, hf]]
      exact ih m hk
    | some captures =>
      rw [hf] at hk
      have hk2 : k ∉ captures.getD entry.1 :: derivedIds release_filter rest := hk
      have hne : captures.getD entry.1 ≠ k := by
        intro he
        exact hk2 (by rw [he]; exact List.mem_cons_self _ _)
      have hk' : k ∉ derivedIds release_filter rest := fun hmem =>
        hk2 (List.mem_cons_of_mem _ hmem)
      rw [show releasesStep release_filter m entry
            = dictInsert m (captures.getD entry.1) ⟨entry.2, captures.getD entry.1⟩ by
          simp [releasesStep, hf]]
      rw [ih _ hk']
      exact alookup_dictInsert_ne m _ k _ (fun he => hne he.symm)

theorem releases_foldl_lookup_found (release_filter : String → Option (Option String))
    (L : List (String × Revision)) (m : List (String × Release)) (N : String) (rev : Revision)
    (captures : Option String)
    (hnd : (derivedIds release_filter L).Nodup)
    (hmem : (N, rev) ∈ L) (hf : release_filter N = some captures) :
    alookup (L.foldl (releasesStep release_filter) m) (captures.getD N)
      = some ⟨rev, captures.getD N⟩ := by
  induction L generalizing m with
  | nil => cases hmem
  | cons entry rest ih =>
    rw [List.foldl_cons]
    rcases List.mem_cons.mp hmem with hhead | htail
    · subst hhead
      rw [derivedIds_cons, hf] at hnd
      have hnd2 : (captures.getD N :: derivedIds release_filter rest).Nodup := hnd
      have hnotin : captures.getD N ∉ derivedIds release_filter rest :=
        (List.nodup_cons.mp hnd2).1
      rw [show releasesStep release_filter m (N, rev)
            = dictInsert m (captures.getD N) ⟨rev, captures.getD N⟩ by
          simp [releasesStep, hf]]
      rw [releases_foldl_lookup_of_not_mem release_filter rest _ _ hnotin]
      exact alookup_dictInsert_self m _ _
    · have hnd' : (derivedIds release_filter rest).Nodup := by
        rw [derivedIds_cons] at hnd
        cases hrf : release_filter entry.1 with
        | none => rw [hrf] at hnd; exact hnd
        | some c =>
          rw [hrf] at hnd
          exact (List.nodup_cons.mp hnd).2
      exact ih _ hnd' htail

theorem releases_foldl_lookup_origin (release_filter : String → Option (Option String))
    (L : List (String × Revision)) (m : List (String × Release)) (k : String) (rel : Release)
    (hfound : alookup (L.foldl (releasesStep release_filter) m) k = some rel) :
    alookup m k = some rel ∨
      ∃ M rev captures, (M, rev) ∈ L ∧ release_filter M = some captures ∧
        captures.getD M = k ∧ rel = ⟨rev, k⟩ := by
  induction L generalizing m with
  | nil => exact Or.inl hfound
  | cons entry rest ih =>
    rw [List.foldl_cons] at hfound
    cases hf : release_filter entry.1 with
    | none =>
      rw [show releasesStep release_filter m entry = m by simp [releasesStep, hf]] at hfound
      rcases ih m hfound with hm | ⟨M, rev, captures, hmem, hfM, hid, hrel⟩
      · exact Or.inl hm
      · exact Or.inr ⟨M, rev, captures, List.mem_cons_of_mem _ hmem, hfM, hid, hrel⟩
    | some captures =>
      rw [show releasesStep release_filter m entry
            = dictInsert m (captures.getD entry.1) ⟨entry.2, captures.getD entry.1⟩ by
          simp [releasesStep, hf]] at hfound
      rcases ih _ hfound with hm | ⟨M, rev, captures', hmem, hfM, hid, hrel⟩
      · by_cases hk : captures.getD entry.1 = k
        · subst hk
          rw [alookup_dictInsert_self] at hm
          refine Or.inr ⟨entry.1, entry.2, captures, ?_, hf, rfl, ?_⟩
          · exact List.mem_cons_self _ _
          · exact (Option.some.injEq _ _).mp hm |>.symm
        · rw [alookup_dictInsert_ne _ _ _ _ (fun he => hk he.symm)] at hm
          exact Or.inl hm
      · exact Or.inr ⟨M, rev, captures', List.mem_cons_of_mem _ hmem, hfM, hid, hrel⟩

theorem releases_foldl_lookup_isSome (release_filter : String → Option (Option String))
    (L : List (String × Revision)) (m : List (String × Release)) (k : String)
    (hk : k ∈ derivedIds release_filter L) :
    (alookup (L.foldl (releasesStep release_filter) m) k).isSome = true := by
  induction L generalizing m with
  | nil => cases hk
  | cons entry rest ih =>
    rw [List.foldl_cons]
    rw [derivedIds_cons] at hk
    cases hf : release_filter entry.1 with
    | none =>
      rw [hf] at hk
      rw [show releasesStep release_filter m entry = m by simp [releasesStep, hf]]
      exact ih m hk
    | some captures =>
      rw [hf] at hk
      have hk2 : k ∈ captures.getD entry.1 :: derivedIds release_filter rest := hk
      rw [show releasesStep release_filter m entry
            = dictInsert m (captures.getD entry.1) ⟨entry.2, captures.getD entry.1⟩ by
          simp [releasesStep, hf]]
      rcases List.mem_cons.mp hk2 with heq | htail
      · by_cases hrest : k ∈ derivedIds release_filter rest
        · exact ih _ hrest
        · rw [releases_foldl_lookup_of_not_mem release_filter rest _ _ hrest]
          subst heq
          rw [alookup_dictInsert_self]
          rfl
      · exact ih _ htail

/-! ### The repository factory and its cache -/

/-- The three supported backend families (`BzrRepo`, `GitRepo`, `HgRepo`). -/
inductive VcsType where
  | bzr
  | git
  | hg
deriving DecidableEq

/-- ASCII lowering of a character, as `str.lower()` acts on the ASCII inputs
used here. -/
def pyLowerChar (c : Char) : Char :=
  if 'A' ≤ c ∧ c ≤ 'Z' then Char.ofNat (c.toNat + 32) else c

/-- ASCII `str.lower()`. -/
def pyLower (s : String) : String :=
  String.mk (s.data.map pyLowerChar)

/-- Embeds the VCS type normalization of `repository_factory`:
`vcs_type.lower()` resolved against the accepted spellings, `none` standing
for raising `UnknownRepositoryTypeError`. -/
def parseVcsType (vcs_type : String) : Option VcsType :=
  let t := pyLower vcs_type
  if t = "bzr" ∨ t = "bazaar" then some .bzr
  else if t = "git" then some .git
  else if t = "hg" ∨ t = "mercurial" then some .hg
  else none

/-- Comparison of `(key, value)` keyword-argument pairs, as Python's `sorted`
compares the tuples produced by `dict.items()`: by code points of the key,
then of the value. -/
def kwPairLe (p q : String × String) : Prop :=
  (match lexCmp natCmp (p.1.data.map Char.toNat) (q.1.data.map Char.toNat) with
   | .eq => lexCmp natCmp (p.2.data.map Char.toNat) (q.2.data.map Char.toNat)
   | o => o).isLE = true

instance kwPairLe.decidableRel : DecidableRel kwPairLe :=
  fun p q => instDecidableEqBool _ _

/-- Embeds the cache key of `repository_factory`:
`tuple('%s=%s' % (k, v) for k, v in sorted(kw.items()))`.  The backend type is
not part of the key. -/
def cache_key (kw : List (String × String)) : List String :=
  (kw.insertionSort kwPairLe).map fun p => p.1 ++ "=" ++ p.2

/-- A constructed `Repository` object.  `instanceId` stands for the object's
identity (two results of the factory are the same Python object exactly when
their `instanceId`s agree); `vcsType` records which subclass constructor built
the object and `kw` the keyword arguments it was built from.  Construction
itself is modelled as always succeeding. -/
structure RepoInstance where
  instanceId : Nat
  vcsType : VcsType
  kw : List (String × String)
deriving DecidableEq

/-- The module-level `loaded_repositories` dictionary, keyed by the cache
key. -/
structure FactoryState where
  loaded_repositories : List (List String × RepoInstance)
deriving DecidableEq

/-- Embeds `repository_factory(vcs_type, **kw)`: resolve the type string (or
raise `UnknownRepositoryTypeError`, the `.error` case), compute the cache key
from the sorted keyword arguments, and return the cached instance when the key
was seen before, otherwise construct, cache and return a new instance. -/
def repository_factory (st : FactoryState) (vcs_type : String)
    (kw : List (String × String)) : Except Unit (RepoInstance × FactoryState) :=
  match parseVcsType vcs_type with
  | none => .error ()
  | some t =>
    let key := cache_key kw
    match st.loaded_repositories.find? (fun e => e.1 == key) with
    | some e => .ok (e.2, st)
    | none =>
      let inst : RepoInstance := ⟨st.loaded_repositories.length, t, kw⟩
      .ok (inst, ⟨st.loaded_repositories ++ [(key, inst)]⟩)

/-! ### Creating, updating and the update throttle -/

/-- The state of one repository's local clone that `create()`/`update()`
inspect: whether a remote is configured, whether the local clone exists, and
the value reported by `last_updated`. -/
structure RepoState where
  remote : Option String
  existsClone : Bool
  lastUpdated : Int
deriving DecidableEq

/-- Embeds `Repository.create()`: if the clone exists return `False`,
otherwise run the clone command (its effect: the clone now exists), call
`mark_updated()` (its effect: `last_updated` now reports the current time) and
return `True`.  `now` is the current `time.time()` as an integer. -/
def create (st : RepoState) (now : Int) : Bool × RepoState :=
  if st.existsClone then (false, st)
  else (true, { st with existsClone := true, lastUpdated := now })

/-- Embeds `Repository.update()`: return immediately if no remote is
configured; call `create()` and skip the update if it just created the clone;
skip when `global_last_update = int(os.environ.get(UPDATE_VARIABLE, '0'))` is
nonzero and `last_updated >= global_last_update`; otherwise run the pull
command and `mark_updated()`.  `envLimit` is the value of the
`VCS_REPO_MGR_UPDATE_LIMIT` environment variable parsed as an integer (`none`
when the variable is unset), and the returned Boolean records whether the
update/pull command ran. -/
def update (st : RepoState) (envLimit : Option Int) (now : Int) : RepoState × Bool :=
  match st.remote with
  | none => (st, false)
  | some _ =>
    let created := create st now
    if created.1 then (created.2, false)
    else
      let global_last_update := envLimit.getD 0
      if global_last_update ≠ 0 ∧ created.2.lastUpdated ≥ global_last_update then
        (created.2, false)
      else
        ({ created.2 with lastUpdated := now }, true)

/-! ### Reading the last-updated marker -/

/-- Python `int(s)` on a string: surrounding whitespace is ignored, then an
optional sign followed by a non-empty run of digits; `none` stands for raising
`ValueError`.  (Underscore digit separators of Python 3.6+ are not produced by
this program and are not modelled.) -/
def pyInt (cs : List Char) : Option Int :=
  let trimmed := (((cs.dropWhile Char.isWhitespace).reverse).dropWhile Char.isWhitespace).reverse
  let digitsVal : List Char → Int := fun ds =>
    Int.ofNat (ds.foldl (fun n c => n * 10 + (c.toNat - 48)) 0)
  match trimmed with
  | '+' :: ds => if !ds.isEmpty && ds.all Char.isDigit then some (digitsVal ds) else none
  | '-' :: ds => if !ds.isEmpty && ds.all Char.isDigit then some (-(digitsVal ds)) else none
  | ds => if !ds.isEmpty && ds.all Char.isDigit then some (digitsVal ds) else none

/-- Embeds `Repository.last_updated`: `int(open(self.last_updated_file).read())`
with every exception turned into `0`.  `readResult` is the outcome of opening
and reading the marker file: `none` when that raises (file missing or
unreadable) and `some s` when it yields the contents `s`. -/
def last_updated (readResult : Option String) : Int :=
  match readResult with
  | none => 0
  | some s =>
    match pyInt s.data with
    | some n => n
    | none => 0

/-! ### Parsing Mercurial branch and tag listings -/

/-- Python `line.split()`: split on runs of whitespace, discarding empty
tokens. -/
def pySplitWs : List Char → List (List Char)
  | [] => []
  | c :: cs =>
    if c.isWhitespace then pySplitWs cs
    else
      match cs with
      | [] => [[c]]
      | d :: _ =>
        if d.isWhitespace then [c] :: pySplitWs cs
        else
          match pySplitWs cs with
          | t :: ts => (c :: t) :: ts
          | [] => [[c]]

/-- The outcome of processing one line of `hg branches` / `hg tags` output. -/
inductive HgParsedLine where
  | skipped
  | revision (revision_number : Int) (revision_id : List Char) (name : List Char)
  | valueError
deriving DecidableEq

/-- Embeds the per-line parsing shared by `HgRepo.find_branches` and
`HgRepo.find_tags`: `tokens = line.split()`; when there are at least two
tokens and the second contains a colon,
`revision_number, revision_id = tokens[1].split(':')` (a `ValueError` unless
the split yields exactly two pieces) followed by `int(revision_number)` (a
`ValueError` unless that piece parses as an integer); any other line is
skipped. -/
def hgParseLine (line : List Char) : HgParsedLine :=
  match pySplitWs line with
  | t0 :: t1 :: _ =>
    if ':' ∈ t1 then
      match splitOnChar ':' t1 with
      | [a, b] =>
        match pyInt a with
        | some n => .revision n b t0
        | none => .valueError
      | _ => .valueError
    else .skipped
  | _ => .skipped

/-- Embeds consuming the generator `HgRepo.find_branches()` over the lines of
`hg branches` output: each parsed line yields a `Revision` with the parsed
number, id and branch name; a `ValueError` aborts the enumeration. -/
def hg_find_branches : List (List Char) → Except Unit (List Revision)
  | [] => .ok []
  | line :: rest =>
    match hgParseLine line with
    | .valueError => .error ()
    | .skipped => hg_find_branches rest
    | .revision n id name =>
      match hg_find_branches rest with
      | .error e => .error e
      | .ok tail => .ok (⟨String.mk id, some n, some (String.mk name), none⟩ :: tail)

/-- Embeds consuming the generator `HgRepo.find_tags()` over the lines of
`hg tags` output; identical to the branch listing except that the name becomes
the tag. -/
def hg_find_tags : List (List Char) → Except Unit (List Revision)
  | [] => .ok []
  | line :: rest =>
    match hgParseLine line with
    | .valueError => .error ()
    | .skipped => hg_find_tags rest
    | .revision n id name =>
      match hg_find_tags rest with
      | .error e => .error e
      | .ok tail => .ok (⟨String.mk id, some n, none, some (String.mk name)⟩ :: tail)

/-! ### The revision-id format assertion -/

/-- One character of the pattern `[A-Fa-z0-9]` appearing in the assertions of
`HgRepo.find_revision_id` and `GitRepo.find_revision_id`. -/
def idPatternChar (c : Char) : Bool :=
  ('A' ≤ c && c ≤ 'F') || ('a' ≤ c && c ≤ 'z') || c.isDigit

/-- The assertion pattern `re.match('^[A-Fa-z0-9]+$', result)`: a non-empty
string of such characters. -/
def idPatternOk (cs : List Char) : Bool :=
  !cs.isEmpty && cs.all idPatternChar

/-- A hexadecimal digit (what the documentation and the test suite's
`^[A-Fa-f0-9]+$` pattern expect of a revision id). -/
def isHexChar (c : Char) : Bool :=
  c.isDigit || ('a' ≤ c && c ≤ 'f') || ('A' ≤ c && c ≤ 'F')

/-- Embeds the tail of `HgRepo.find_revision_id`: the captured output of
`hg id --debug --id`, `.rstrip('+')`, then the format assertion; `.error`
stands for the assertion failing. -/
def hg_find_revision_id (raw : String) : Except Unit String :=
  let result := ((raw.data.reverse.dropWhile fun c => c == '+')).reverse
  if idPatternOk result then .ok (String.mk result) else .error ()

/-- Embeds the tail of `GitRepo.find_revision_id`: the captured output of
`git rev-parse`, then the same format assertion. -/
def git_find_revision_id (raw : String) : Except Unit String :=
  if idPatternOk raw.data then .ok raw else .error ()

/-! ### Coercing names and URLs to repositories -/

/-- Embeds `normalize_name`: `re.sub('[^a-z0-9]', '', name.lower())`. -/
def normalize_name (name : String) : String :=
  String.mk ((pyLower name).data.filter fun c => ('a' ≤ c && c ≤ 'z') || c.isDigit)

/-- Embeds the section matching of `find_configured_repository`: the
configured section names whose normalized form equals the normalized query.
`config` is the list of section names of the merged configuration files. -/
def matching_repos (config : List String) (name : String) : List String :=
  config.filter fun r => normalize_name name == normalize_name r

/-- The two failure modes of `find_configured_repository`:
`NoSuchRepositoryError` and `AmbiguousRepositoryNameError`. -/
inductive FindError where
  | noSuch
  | ambiguous
deriving DecidableEq

/-- Embeds the name-resolution part of `find_configured_repository`: zero
matches raise `NoSuchRepositoryError`, more than one raises
`AmbiguousRepositoryNameError`, one match resolves to that section (whose
options are then handed to `repository_factory`; that step is not needed
here). -/
def find_configured_repository (config : List String) (name : String) :
    Except FindError String :=
  match matching_repos config name with
  | [] => .error .noSuch
  | [r] => .ok r
  | _ => .error .ambiguous

/-- Which branch of `coerce_repository` produced the repository. -/
inductive CoerceResult where
  | configured (sectionName : String)
  | viaTypePlus (vcsType : VcsType) (remote : String)
  | viaGitSuffix (remote : String)
deriving DecidableEq

/-- The errors `coerce_repository` lets escape for string input:
`AmbiguousRepositoryNameError` from the configured-name lookup and the final
`ValueError` ("could not coerce"). -/
inductive CoerceError where
  | ambiguousName
  | couldNotCoerce
deriving DecidableEq

/-- Embeds `coerce_repository` for a string argument: try
`find_configured_repository`, catching only `NoSuchRepositoryError`; then try
the `<type>+<url>` form (`value.partition('+')`, both parts non-empty, and
`UnknownRepositoryTypeError` from the factory swallowed); then the `.git`
suffix heuristic; otherwise raise `ValueError`. -/
def coerce_repository (config : List String) (value : String) :
    Except CoerceError CoerceResult :=
  match find_configured_repository config value with
  | .ok sectionName => .ok (.configured sectionName)
  | .error .ambiguous => .error .ambiguousName
  | .error .noSuch =>
    let vcs_type := value.data.takeWhile fun c => c != '+'
    let rest := value.data.dropWhile fun c => c != '+'
    let fallback : Except CoerceError CoerceResult :=
      if (".git".data.isSuffixOf value.data) then .ok (.viaGitSuffix value)
      else .error .couldNotCoerce
    match rest with
    | '+' :: remote =>
      if vcs_type ≠ [] ∧ remote ≠ [] then
        match parseVcsType (String.mk vcs_type) with
        | some t => .ok (.viaTypePlus t (String.mk remote))
        | none => fallback
      else fallback
    | _ => fallback

/-! ## The claims -/

/-- C1: for every repository and every ceiling string `H`, `select_release(H)`
returns the greatest release not exceeding `H`: a release `r` of the
repository whose identifier's natural-order key is `<=` the key of `H` and
such that every release whose key is `<=` the key of `H` has key `<=` the key
of `r`; and it raises `NoMatchingReleasesError` (modelled as `none`) if and
only if no release has a sort key `<=` the key of `H`. -/
theorem claim_C1_select_release (rels : List Release) (H : String) :
    (select_release rels H = none ↔
      ∀ r ∈ rels, keyLeB (natsort_key r.identifier) (natsort_key H) = false)
    ∧ ∀ r, select_release rels H = some r →
        r ∈ rels ∧ keyLeB (natsort_key r.identifier) (natsort_key H) = true ∧
          ∀ q ∈ rels, keyLeB (natsort_key q.identifier) (natsort_key H) = true →
            keyLeB (natsort_key q.identifier) (natsort_key r.identifier) = true :=
  ⟨select_release_eq_none_iff rels H, fun r hr => select_release_eq_some rels H r hr⟩

/-- Witness for C1 at the spec's concrete example: with releases `0.19` and
`0.19.3` and ceiling `0.19.5` the selected release `0.19.3` is a member of the
repository and its key is below the ceiling's key. -/
theorem claim_C1_select_release_witness :
    (⟨⟨"b", none, none, none⟩, "0.19.3"⟩ : Release) ∈
        ([⟨⟨"a", none, none, none⟩, "0.19"⟩, ⟨⟨"b", none, none, none⟩, "0.19.3"⟩] :
          List Release)
      ∧ keyLeB (natsort_key "0.19.3") (natsort_key "0.19.5") = true :=
  have h := (claim_C1_select_release
      [⟨⟨"a", none, none, none⟩, "0.19"⟩, ⟨⟨"b", none, none, none⟩, "0.19.3"⟩] "0.19.5").2
      ⟨⟨"b", none, none, none⟩, "0.19.3"⟩ (by decide)
  ⟨h.1, h.2.1⟩

/-- C4: the natural-order sort used by `ordered_releases` / `ordered_tags` /
`ordered_branches` compares strings by alternating runs of digits and
non-digits, digit runs numerically: for all strings `A`, `B` where `A`'s
natural-order key is less than `B`'s, sorting `[B, A]` yields `[A, B]`;
concretely sorting `["0.10", "0.2"]` yields `["0.2", "0.10"]` and sorting
`["0.20", "0.18"]` yields `["0.18", "0.20"]`. -/
theorem claim_C4_natural_order_sort :
    (∀ A B : String, keyCmp (natsort_key A) (natsort_key B) = Ordering.lt →
      natsort id [B, A] = [A, B])
    ∧ natsort id ["0.10", "0.2"] = ["0.2", "0.10"]
    ∧ natsort id ["0.20", "0.18"] = ["0.18", "0.20"] := by
  refine ⟨?_, by decide, by decide⟩
  intro A B hAB
  have hnot : ¬ natLeOn id B A := fun hle => lawful_keyCmp.lt_not_le hAB hle
  show List.insertionSort (natLeOn id) [B, A] = [A, B]
  simp only [List.insertionSort, List.orderedInsert, if_neg hnot]

/-- Witness for C4: `"0.2"` is natural-order below `"0.10"`, and sorting the
reversed pair restores ascending order. -/
theorem claim_C4_natural_order_sort_witness :
    keyCmp (natsort_key "0.2") (natsort_key "0.10") = Ordering.lt
    ∧ natsort id ["0.10", "0.2"] = ["0.2", "0.10"] :=
  ⟨by decide, claim_C4_natural_order_sort.1 "0.2" "0.10" (by decide)⟩

/-- C8 is refuted as stated: in a repository with release identifiers `"1"`
and `"01"` (distinct keys of the releases mapping, but with equal
natural-order sort keys), `select_release "1"` returns the release with
identifier `"01"`, not the one with identifier `"1"`, because both releases
match the ceiling and the stable ascending sort leaves `"01"` last. -/
theorem claim_C8_counterexample :
    (([⟨⟨"a", none, none, none⟩, "1"⟩, ⟨⟨"a", none, none, none⟩, "01"⟩] :
        List Release).any fun r => r.identifier == "1") = true
    ∧ select_release
        [⟨⟨"a", none, none, none⟩, "1"⟩, ⟨⟨"a", none, none, none⟩, "01"⟩] "1"
        = some ⟨⟨"a", none, none, none⟩, "01"⟩
    ∧ ("01" : String) ≠ "1" := by decide

/-- C8 (amended): if `X` is the identifier of some release of the repository
then `select_release X` succeeds, and the identifier of the returned release
has the same natural-order sort key as `X` (so it equals `X` whenever no other
release identifier shares `X`'s key). -/
theorem claim_C8_select_release_exact (rels : List Release) (X : String)
    (hX : ∃ r ∈ rels, r.identifier = X) :
    ∃ r', select_release rels X = some r' ∧
      keyCmp (natsort_key r'.identifier) (natsort_key X) = Ordering.eq := by
  obtain ⟨r, hr, hid⟩ := hX
  have hle : keyLeB (natsort_key r.identifier) (natsort_key X) = true := by
    rw [hid]
    exact lawful_keyCmp.le_refl _
  cases hsel : select_release rels X with
  | none =>
    have hfalse := (select_release_eq_none_iff rels X).mp hsel r hr
    rw [hfalse] at hle
    exact absurd hle (by simp)
  | some r' =>
    obtain ⟨_, hr'le, hmax⟩ := select_release_eq_some rels X r' hsel
    have h1 : keyLeB (natsort_key r.identifier) (natsort_key r'.identifier) = true :=
      hmax r hr hle
    have h2 : keyLeB (natsort_key X) (natsort_key r'.identifier) = true := by
      rw [← hid]
      exact h1
    exact ⟨r', rfl, (lawful_keyCmp.eq_iff _ _).mpr (lawful_keyCmp.le_antisymm hr'le h2)⟩

/-- Witness for the amended C8: with the single release `0.19`, selecting
`0.19` succeeds with an identifier whose key equals the key of `0.19`. -/
theorem claim_C8_select_release_exact_witness :
    ∃ r', select_release [⟨⟨"a", none, none, none⟩, "0.19"⟩] "0.19" = some r' ∧
      keyCmp (natsort_key r'.identifier) (natsort_key "0.19") = Ordering.eq :=
  claim_C8_select_release_exact [⟨⟨"a", none, none, none⟩, "0.19"⟩] "0.19" (by decide)

/-- C2: the code violates the claim — the cache key of `repository_factory` is
`tuple('%s=%s' % (k, v) for k, v in sorted(kw.items()))`, computed from the
constructor arguments only, so the backend type is not part of the key.  A
first call with type `git` constructs and caches a `GitRepo`; a second call
with the same arguments deduplicates onto the same instance; and a call with
the different valid type `hg` and identical arguments hits the same cache
entry and returns the very same `GitRepo` instance instead of constructing an
`HgRepo`. -/
theorem claim_C2_factory_cache_ignores_type :
    repository_factory ⟨[]⟩ "git" [("remote", "URL")] =
      .ok (⟨0, .git, [("remote", "URL")]⟩,
        ⟨[(["remote=URL"], ⟨0, .git, [("remote", "URL")]⟩)]⟩)
    ∧ repository_factory ⟨[(["remote=URL"], ⟨0, .git, [("remote", "URL")]⟩)]⟩ "git"
        [("remote", "URL")] =
      .ok (⟨0, .git, [("remote", "URL")]⟩,
        ⟨[(["remote=URL"], ⟨0, .git, [("remote", "URL")]⟩)]⟩)
    ∧ repository_factory ⟨[(["remote=URL"], ⟨0, .git, [("remote", "URL")]⟩)]⟩ "hg"
        [("remote", "URL")] =
      .ok (⟨0, .git, [("remote", "URL")]⟩,
        ⟨[(["remote=URL"], ⟨0, .git, [("remote", "URL")]⟩)]⟩)
    ∧ VcsType.git ≠ VcsType.hg := by decide

/-- C5 is refuted as stated: with a remote configured, an existing clone, a
last-recorded update time of `5` and the environment update-limit variable set
to the timestamp `0`, `update()` does run the pull (the code treats a limit
that parses to `0` as no limit at all), while the claim's condition — no
timestamp set, or last-recorded time strictly below the set timestamp `0` —
is false. -/
theorem claim_C5_counterexample :
    (update ⟨some "R", true, 5⟩ (some 0) 9).2 = true
    ∧ ¬((some (0 : Int) = none) ∨ (5 : Int) < 0) := by decide

/-- C5 (amended): `update()` runs the update/pull command — and then records a
new update timestamp — exactly when a remote is configured, the local clone
already existed (`create()` returned `False`), and the update-limit value
parses to `0` (variable unset, or set to `0`) or the last-recorded update time
is strictly below it; in every other case no pull is performed. -/
theorem claim_C5_update (st : RepoState) (envLimit : Option Int) (now : Int) :
    ((update st envLimit now).2 = true ↔
      st.remote.isSome = true ∧ st.existsClone = true ∧
        (envLimit.getD 0 = 0 ∨ st.lastUpdated < envLimit.getD 0))
    ∧ ((update st envLimit now).2 = true →
        (update st envLimit now).1.lastUpdated = now) := by
  obtain ⟨rem, ex, lu⟩ := st
  cases rem with
  | none => simp [update]
  | some r =>
    cases ex with
    | false => simp [update, create]
    | true =>
      by_cases hskip : envLimit.getD 0 ≠ 0 ∧ lu ≥ envLimit.getD 0
      · simp [update, create, hskip]
      · simp [update, create, hskip]
        omega

/-- Witness for the amended C5: remote configured, clone existing, no limit
variable set — the pull runs and the timestamp is recorded. -/
theorem claim_C5_update_witness :
    (update ⟨some "R", true, 5⟩ none 9).2 = true
    ∧ (update ⟨some "R", true, 5⟩ none 9).1.lastUpdated = 9 :=
  have hp : (update ⟨some "R", true, 5⟩ none 9).2 = true := by decide
  ⟨hp, (claim_C5_update ⟨some "R", true, 5⟩ none 9).2 hp⟩

/-- C10: reading `last_updated` never raises: it returns the integer stored in
the per-clone marker file when the file exists and parses as an integer, and
returns `0` in every other case (marker absent or unreadable, or non-integer
contents); consequently a clone that was never marked reports the epoch (`0`)
and is never suppressed by the `update()` throttle (for the non-negative limit
values the mechanism produces). -/
theorem claim_C10_last_updated (readResult : Option String) :
    (readResult = none → last_updated readResult = 0)
    ∧ (∀ s n, readResult = some s → pyInt s.data = some n → last_updated readResult = n)
    ∧ (∀ s, readResult = some s → pyInt s.data = none → last_updated readResult = 0)
    ∧ (∀ rem now envLimit, 0 ≤ (envLimit : Option Int).getD 0 →
        (update ⟨some rem, true, last_updated none⟩ envLimit now).2 = true) := by
  refine ⟨?_, ?_, ?_, ?_⟩
  · intro h
    rw [h]
    rfl
  · intro s n hs hp
    rw [hs]
    simp [last_updated, hp]
  · intro s hs hp
    rw [hs]
    simp [last_updated, hp]
  · intro rem now envLimit hnn
    by_cases hz : envLimit.getD 0 = 0
    · simp [update, create, last_updated, hz]
    · simp [update, create, last_updated]
      rw [if_neg (show ¬(¬envLimit.getD 0 = 0 ∧ envLimit.getD 0 ≤ 0) by omega)]

/-- Witness for C10: marker contents `"123\n"` (as written by
`mark_updated()`) parse to `123`, and an unmarked clone is updated even under
a set limit. -/
theorem claim_C10_last_updated_witness :
    last_updated (some "123\n") = 123
    ∧ (update ⟨some "r", true, last_updated none⟩ (some 42) 9).2 = true :=
  ⟨(claim_C10_last_updated (some "123\n")).2.1 "123\n" 123 rfl (by decide),
   (claim_C10_last_updated (some "123\n")).2.2.2 "r" 9 (some 42) (by decide)⟩

/-- C3 is refuted as stated: with the single-capture filter `^v?(\d+)$`, the
names `"1"` and `"v1"` both match and both derive the identifier `"1"`;
iterating `{"1": rev1, "v1": rev2}` leaves only the entry built from the later
name `"v1"`, so the releases mapping contains no entry derived from `"1"` even
though the release filter matches `"1"`. -/
theorem claim_C3_counterexample :
    optionalVFilter "1" = some (some "1")
    ∧ optionalVFilter "v1" = some (some "1")
    ∧ releases
        [("1", ⟨"aa", none, none, some "1"⟩), ("v1", ⟨"bb", none, none, some "v1"⟩)]
        optionalVFilter
      = [("1", ⟨⟨"bb", none, none, some "v1"⟩, "1"⟩)]
    ∧ (⟨"aa", none, none, some "1"⟩ : Revision) ≠ ⟨"bb", none, none, some "v1"⟩ := by
  decide

/-- C3 (amended): for every name `N` in the mapping selected by
`release_scheme`, if the release filter matches `N` then the releases mapping
has an entry under the identifier derived from `N` (the captured substring
when the filter has a capture group, `N` itself otherwise); every entry of the
mapping derives from some matching name, so names the filter rejects
contribute nothing; and when the derived identifiers of the matching names are
pairwise distinct, the entry for `N` holds exactly `N`'s revision (otherwise
the last matching name wins).  With the filter `^v(\d+(?:\.\d+)*)$` the tag
`"v2.4.0"` yields identifier `"2.4.0"` and `"not-a-release"` yields no
entry. -/
theorem claim_C3_releases (avail : List (String × Revision))
    (release_filter : String → Option (Option String)) :
    (∀ N rev captures, (N, rev) ∈ avail → release_filter N = some captures →
      (alookup (releases avail release_filter) (captures.getD N)).isSome = true)
    ∧ (∀ k rel, alookup (releases avail release_filter) k = some rel →
        ∃ M rev captures, (M, rev) ∈ avail ∧ release_filter M = some captures ∧
          captures.getD M = k ∧ rel = ⟨rev, k⟩)
    ∧ ((derivedIds release_filter avail).Nodup →
        ∀ N rev captures, (N, rev) ∈ avail → release_filter N = some captures →
          alookup (releases avail release_filter) (captures.getD N)
            = some ⟨rev, captures.getD N⟩)
    ∧ releases [("v2.4.0", ⟨"cc", none, none, some "v2.4.0"⟩),
        ("not-a-release", ⟨"dd", none, none, some "not-a-release"⟩)] vFilter
      = [("2.4.0", ⟨⟨"cc", none, none, some "v2.4.0"⟩, "2.4.0"⟩)]
    ∧ vFilter "v2.4.0" = some (some "2.4.0")
    ∧ vFilter "not-a-release" = none := by
  refine ⟨?_, ?_, ?_, by decide, by decide, by decide⟩
  · intro N rev captures hmem hf
    apply releases_foldl_lookup_isSome
    unfold derivedIds
    exact List.mem_filterMap.mpr ⟨(N, rev), hmem, by simp [hf]⟩
  · intro k rel hfound
    rcases releases_foldl_lookup_origin release_filter avail [] k rel hfound with hm | h
    · simp [alookup] at hm
    · exact h
  · intro hnd N rev captures hmem hf
    exact releases_foldl_lookup_found release_filter avail [] N rev captures hnd hmem hf

/-- Witness for the amended C3: the tag `v2.4.0` under the capture filter
produces the entry `2.4.0` holding its revision. -/
theorem claim_C3_releases_witness :
    alookup (releases [("v2.4.0", ⟨"cc", none, none, some "v2.4.0"⟩)] vFilter) "2.4.0"
      = some ⟨⟨"cc", none, none, some "v2.4.0"⟩, "2.4.0"⟩ :=
  (claim_C3_releases [("v2.4.0", ⟨"cc", none, none, some "v2.4.0"⟩)] vFilter).2.2.1
    (by decide) "v2.4.0" ⟨"cc", none, none, some "v2.4.0"⟩ (some "2.4.0")
    (by decide) (by decide)

theorem splitOnChar_of_not_mem (sep : Char) (l : List Char) (h : sep ∉ l) :
    splitOnChar sep l = [l] := by
  induction l with
  | nil => rfl
  | cons c cs ih =>
    have hc : ¬ c = sep := fun he => h (he ▸ List.mem_cons_self c cs)
    have hcs : sep ∉ cs := fun hm => h (List.mem_cons_of_mem _ hm)
    simp [splitOnChar, ih hcs, hc]

theorem mem_of_splitOnChar_pair (sep : Char) (l : List Char) (a b : List Char)
    (h : splitOnChar sep l = [a, b]) : sep ∈ l := by
  by_cases hm : sep ∈ l
  · exact hm
  · rw [splitOnChar_of_not_mem sep l hm] at h
    simp at h

theorem hg_find_branches_error_iff (lines : List (List Char)) :
    hg_find_branches lines = .error () ↔ ∃ l ∈ lines, hgParseLine l = .valueError := by
  induction lines with
  | nil => simp [hg_find_branches]
  | cons line rest ih =>
    cases hp : hgParseLine line with
    | valueError => simp [hg_find_branches, hp]
    | skipped => simp [hg_find_branches, hp, ih]
    | revision n id name =>
      cases hr : hg_find_branches rest with
      | error e => cases e; simp [hg_find_branches, hp, hr, ← ih]
      | ok tail => simp [hg_find_branches, hp, hr, ← ih]

theorem hg_find_tags_error_iff (lines : List (List Char)) :
    hg_find_tags lines = .error () ↔ ∃ l ∈ lines, hgParseLine l = .valueError := by
  induction lines with
  | nil => simp [hg_find_tags]
  | cons line rest ih =>
    cases hp : hgParseLine line with
    | valueError => simp [hg_find_tags, hp]
    | skipped => simp [hg_find_tags, hp, ih]
    | revision n id name =>
      cases hr : hg_find_tags rest with
      | error e => cases e; simp [hg_find_tags, hp, hr, ← ih]
      | ok tail => simp [hg_find_tags, hp, hr, ← ih]

theorem hgParseLine_valueError_iff (l : List Char) :
    hgParseLine l = .valueError ↔
      ∃ t1, (pySplitWs l).get? 1 = some t1 ∧ ':' ∈ t1 ∧
        ¬ ∃ a b n, splitOnChar ':' t1 = [a, b] ∧ pyInt a = some n := by
  unfold hgParseLine
  cases hts : pySplitWs l with
  | nil => simp
  | cons t0 ts =>
    cases ts with
    | nil => simp [List.get?]
    | cons t1 rest =>
      simp only [List.get?, Option.some.injEq]
      by_cases hc : ':' ∈ t1
      · simp only [if_pos hc]
        rcases hsp : splitOnChar ':' t1 with _ | ⟨a, _ | ⟨b, _ | ⟨c2, cs⟩⟩⟩
        · simp [hsp, hc]
        · simp [hsp, hc]
        · cases hpi : pyInt a with
          | some n => simp [hsp, hpi, hc]
          | none => simp [hsp, hpi, hc]
        · simp [hsp, hc]
      · simp only [if_neg hc]
        simp [hc]

/-- C6 is refuted as stated: the line `"branch x:y"` has a second token that
contains a colon but is not of the shape `<number>:<hexid>`; `int('x')` raises
`ValueError`, so the enumeration fails instead of skipping the line — for the
branch listing and likewise for the tag listing, where `"tag 1:a:b"` fails the
two-element tuple unpacking. -/
theorem claim_C6_counterexample :
    hgParseLine "branch x:y".data = .valueError
    ∧ hg_find_branches ["branch 1:abc".data, "branch x:y".data] = .error ()
    ∧ hg_find_tags ["tag 1:a:b".data] = .error () := by decide

/-- C6 (amended): the per-line parser of `HgRepo.find_branches` /
`HgRepo.find_tags` yields a `Revision` with the parsed integer number and the
id whenever the line has at least two whitespace tokens and the second splits
on `:` into exactly two pieces whose first parses as an integer; it skips
lines with fewer than two tokens or with no colon in the second token; but the
enumeration fails (raises `ValueError`) if and only if some line's second
token contains a colon without being of that shape — such lines are not
skipped. -/
theorem claim_C6_hg_line_parsing (lines : List (List Char)) :
    (hg_find_branches lines = .error () ↔ ∃ l ∈ lines, hgParseLine l = .valueError)
    ∧ (hg_find_tags lines = .error () ↔ ∃ l ∈ lines, hgParseLine l = .valueError)
    ∧ (∀ l t0 t1 rest a b n, pySplitWs l = t0 :: t1 :: rest →
        splitOnChar ':' t1 = [a, b] → pyInt a = some n →
          hgParseLine l = .revision n b t0)
    ∧ (∀ l t1, (pySplitWs l).get? 1 = some t1 → ':' ∉ t1 → hgParseLine l = .skipped)
    ∧ (∀ l, (pySplitWs l).length ≤ 1 → hgParseLine l = .skipped)
    ∧ (∀ l, hgParseLine l = .valueError ↔
        ∃ t1, (pySplitWs l).get? 1 = some t1 ∧ ':' ∈ t1 ∧
          ¬ ∃ a b n, splitOnChar ':' t1 = [a, b] ∧ pyInt a = some n) := by
  refine ⟨hg_find_branches_error_iff lines, hg_find_tags_error_iff lines, ?_, ?_, ?_,
    fun l => hgParseLine_valueError_iff l⟩
  · intro l t0 t1 rest a b n h1 h2 h3
    have hc : ':' ∈ t1 := mem_of_splitOnChar_pair ':' t1 a b h2
    unfold hgParseLine
    rw [h1]
    simp [hc, h2, h3]
  · intro l t1 h1 hc
    unfold hgParseLine
    cases hts : pySplitWs l with
    | nil => rfl
    | cons u0 us =>
      cases us with
      | nil => rfl
      | cons u1 urest =>
        rw [hts] at h1
        simp only [List.get?, Option.some.injEq] at h1
        subst h1
        simp [hc]
  · intro l hlen
    unfold hgParseLine
    cases hts : pySplitWs l with
    | nil => rfl
    | cons u0 us =>
      cases us with
      | nil => rfl
      | cons u1 urest =>
        rw [hts] at hlen
        simp at hlen

/-- Witness for the amended C6: `"branch 1:abc"` parses into a revision with
number `1`, id `abc` and name `branch`, and a listing containing
`"branch x:y"` makes the branch enumeration fail. -/
theorem claim_C6_hg_line_parsing_witness :
    hgParseLine "branch 1:abc".data = .revision 1 "abc".data "branch".data
    ∧ hg_find_branches ["branch x:y".data] = .error () :=
  ⟨(claim_C6_hg_line_parsing []).2.2.1 "branch 1:abc".data "branch".data "1:abc".data
      [] "1".data "abc".data 1 (by decide) (by decide) (by decide),
   (claim_C6_hg_line_parsing ["branch x:y".data]).1.mpr
     ⟨"branch x:y".data, by decide, by decide⟩⟩

/-- C7: the code violates the claim — the assertion pattern in
`HgRepo.find_revision_id` and `GitRepo.find_revision_id` is `^[A-Fa-z0-9]+$`
(the lowercase range runs to `z`; the test suite's hex pattern is
`^[A-Fa-f0-9]+$`), so the output `"gg"`, which contains the non-hexadecimal
letter `g`, passes the assertion and is returned by both backends, while the
symmetric uppercase `"GG"` fails it; the Mercurial variant does strip the
trailing `+` marker and both reject empty output. -/
theorem claim_C7_assertion_accepts_nonhex :
    hg_find_revision_id "gg" = .ok "gg"
    ∧ git_find_revision_id "gg" = .ok "gg"
    ∧ isHexChar 'g' = false
    ∧ hg_find_revision_id "GG" = .error ()
    ∧ git_find_revision_id "GG" = .error ()
    ∧ hg_find_revision_id "abc123+++" = .ok "abc123"
    ∧ hg_find_revision_id "" = .error ()
    ∧ git_find_revision_id "" = .error () := by decide

/-- C9: `coerce_repository` reaches the remote-URL heuristics (the
`<type>+<url>` and `.git`-suffix checks) only when the configured-name lookup
fails with `NoSuchRepositoryError`, i.e. when no configured section matches
the normalized input; when two or more configured names match, the
`AmbiguousRepositoryNameError` propagates to the caller and no URL heuristic
is attempted. -/
theorem claim_C9_coerce_fallthrough (config : List String) (value : String) :
    (2 ≤ (matching_repos config value).length →
      coerce_repository config value = .error .ambiguousName)
    ∧ (∀ t r, coerce_repository config value = .ok (.viaTypePlus t r) →
        matching_repos config value = [])
    ∧ (∀ r, coerce_repository config value = .ok (.viaGitSuffix r) →
        matching_repos config value = []) := by
  unfold coerce_repository find_configured_repository
  cases hm : matching_repos config value with
  | nil =>
    refine ⟨?_, ?_, ?_⟩
    · intro h2
      simp at h2
    · intro t r _
      rfl
    · intro r _
      rfl
  | cons m1 ms =>
    cases ms with
    | nil =>
      refine ⟨?_, ?_, ?_⟩
      · intro h2
        simp at h2
      · intro t r h
        simp at h
      · intro r h
        simp at h
    | cons m2 ms2 =>
      refine ⟨fun _ => rfl, ?_, ?_⟩
      · intro t r h
        simp at h
      · intro r h
        simp at h

/-- Witness for C9: the names `repo` and `REPO` normalize alike, so coercing
`"repo"` propagates the ambiguity error; and a successful `git+URL` coercion
happens with no matching configured name. -/
theorem claim_C9_coerce_fallthrough_witness :
    coerce_repository ["repo", "REPO"] "repo" = .error .ambiguousName
    ∧ matching_repos [] "git+URL" = [] :=
  ⟨(claim_C9_coerce_fallthrough ["repo", "REPO"] "repo").1 (by decide),
   (claim_C9_coerce_fallthrough [] "git+URL").2.1 .git "URL" (by decide)⟩
